import Mathlib

/-!
Shallow embedding of the core registry/resolver logic of
`location_lookup.py` (GoodGuysFree/ggf-glyph-dispenser).

Modelling conventions:
* A Python dict with string keys is embedded as an association list
  `List (String × Record)` in insertion order (Python dicts preserve
  insertion order); well-formed registries have `Nodup` keys.
* The two fuzzywuzzy similarity scorers `fuzz.ratio` (full ratio) and
  `fuzz.partial_ratio` (as used through `process.extractOne`, which also
  pre-processes its arguments) are external-library functions; they are
  taken as parameters `fuzzR fuzzPR : String → String → Nat` throughout,
  exactly as the specification treats them ("any standard approximate
  string-similarity algorithm", range 0-100).  `process.extractOne` over a
  fixed query is embedded by `extractOne` below (Python `max` keeps the
  first element attaining the maximum).
* File persistence is embedded by returning the new registry value
  together with a `saved` flag recording whether `save_locations` was
  called; `load_locations`'s exception handling is embedded over an
  explicit `ReadOutcome` of the backing store.
* Python `str.lower()` / `str.split()` / substring `in` are embedded on
  ASCII data by `pylower`, `pysplit`, `substr`.
-/

namespace GlyphDispenser

/-- Python `str.lower()` (ASCII case mapping). -/
def pylower (s : String) : String := ⟨s.data.map Char.toLower⟩

/-- Helper for `pysplit`: scan the characters, collecting the current
(reversed) word in `acc` and emitting it at each whitespace run or at the
end. -/
def words_aux : List Char → List Char → List String
  | [], acc => if acc = [] then [] else [⟨acc.reverse⟩]
  | c :: cs, acc =>
    if c.isWhitespace then
      if acc = [] then words_aux cs [] else ⟨acc.reverse⟩ :: words_aux cs []
    else words_aux cs (c :: acc)

/-- Python `str.split()` with no separator: the maximal non-whitespace
runs, in order (no empty pieces). -/
def pysplit (s : String) : List String := words_aux s.data []

/-- Python substring test `needle in hay`. -/
def substr (needle hay : String) : Bool :=
  decide (needle.toList <:+: hay.toList)

/-- One location record: the value part of an entry of `locations.json`. -/
structure Record where
  galaxy : String
  address : String
  num_returns : Nat
  description : String
deriving DecidableEq, Repr

/-- The in-memory registry: the JSON mapping in insertion order. -/
abbrev Registry := List (String × Record)

/-- The key list `list(locations.keys())`. -/
def keys (locs : Registry) : List String := locs.map Prod.fst

/-- Python dict lookup `locations[name]` (first entry with that key). -/
def lookup (locs : Registry) (name : String) : Option Record :=
  (locs.find? (fun p => p.1 == name)).map Prod.snd

/-- `record["num_returns"] += 1`. -/
def bump (r : Record) : Record := { r with num_returns := r.num_returns + 1 }

/-- In-place increment `locations[name]["num_returns"] += 1` on the dict. -/
def incr_name (locs : Registry) (name : String) : Registry :=
  locs.map (fun p => if p.1 = name then (p.1, bump p.2) else p)

/-- Result of one `find_location_in_string` call: the returned value, the
state of the backing store after the call, and whether `save_locations`
ran. -/
structure FindResult where
  found : Option Record
  locs : Registry
  saved : Bool
deriving DecidableEq, Repr

/-- The common accept step of all three passes of
`find_location_in_string`: `locations[m]["num_returns"] += 1;
save_locations(locations); return locations[m]`. -/
def accept (locs : Registry) (m : String) : FindResult :=
  ⟨lookup (incr_name locs m) m, incr_name locs m, true⟩

/-- Python `max` over `(choice, score)` pairs with best-so-far `b`: the
first pair attaining the maximal score wins (a later pair replaces the
best only on a strictly greater score). -/
def pymax (score : String → Nat) (b : String × Nat) : List String → String × Nat
  | [] => b
  | m :: ms => pymax score (if b.2 < score m then (m, score m) else b) ms

/-- `process.extractOne(query, choices, scorer=...)` for a fixed query:
`score n` is the library's score of choice `n` against the query; Python's
`max` returns the first choice attaining the maximal score, and `None` is
returned only for an empty choice list. -/
def extractOne (score : String → Nat) : List String → Option (String × Nat)
  | [] => none
  | n :: ns => some (pymax score (n, score n) ns)

/-- The `matches` list built by the single-word pass for one input word
`w`: `for loc_name in location_names: for loc_word in loc_name.split():
if fuzz.ratio(w, loc_word) >= threshold: matches.append(loc_name)`. -/
def word_matches (fuzzR : String → String → Nat) (threshold : Nat)
    (locs : Registry) (w : String) : List String :=
  (keys locs).flatMap fun n =>
    ((pysplit n).filter (fun lw => decide (threshold ≤ fuzzR w lw))).map fun _ => n

/-- The single-word fuzzy pass (lines 108-123 of `location_lookup.py`):
scan the input words in order; on the first word whose `matches` list has
length exactly 1, accept that name; otherwise return no match. -/
def single_word_pass (fuzzR : String → String → Nat) (threshold : Nat)
    (locs : Registry) : List String → FindResult
  | [] => ⟨none, locs, false⟩
  | w :: ws =>
    match word_matches fuzzR threshold locs w with
    | [n] => accept locs n
    | _ => single_word_pass fuzzR threshold locs ws

/-- The full-phrase fuzzy pass followed by the single-word pass
(lines 88-127): take the best partial-ratio choice; if its score reaches
the threshold and the lower-cased matched name is a substring of the
input, or some input word has full ratio at least the threshold against
the lower-cased matched name, accept it; otherwise fall through to the
single-word pass. -/
def fuzzy_passes (fuzzR fuzzPR : String → String → Nat) (threshold : Nat)
    (locs : Registry) (input_lower : String) : FindResult :=
  match extractOne (fun n => fuzzPR input_lower n) (keys locs) with
  | some (match_name, score) =>
    if threshold ≤ score then
      if substr (pylower match_name) input_lower
          || (pysplit input_lower).any
              (fun w => decide (threshold ≤ fuzzR w (pylower match_name))) then
        accept locs match_name
      else
        single_word_pass fuzzR threshold locs (pysplit input_lower)
    else
      single_word_pass fuzzR threshold locs (pysplit input_lower)
  | none => single_word_pass fuzzR threshold locs (pysplit input_lower)

/-- `find_location_in_string(input_string, threshold)` over registry state
`locs` (the Python guard `not input_string or not isinstance(...)` is, for
string arguments, the empty-string test).  Substring pass: the candidates
are the names whose lower-casing contains the lower-cased input; with 1 or
2 candidates the first is accepted, otherwise fall through to the fuzzy
passes. -/
def find_location_in_string (fuzzR fuzzPR : String → String → Nat)
    (input_string : String) (threshold : Nat) (locs : Registry) : FindResult :=
  if input_string = "" then ⟨none, locs, false⟩
  else
    match (keys locs).filter (fun n => substr (pylower input_string) (pylower n)) with
    | m :: rest =>
      if rest.length ≤ 1 then accept locs m
      else fuzzy_passes fuzzR fuzzPR threshold locs (pylower input_string)
    | [] => fuzzy_passes fuzzR fuzzPR threshold locs (pylower input_string)

/-- `register_location(name, galaxy, address, description)`: the returned
Bool and the state of the backing store after the call (saved exactly on
success). -/
def register_location (name galaxy address description : String)
    (locs : Registry) : Bool × Registry :=
  if pylower name ∈ (keys locs).map pylower
      ∨ pylower (galaxy ++ "-" ++ address)
          ∈ locs.map (fun p => pylower (p.2.galaxy ++ "-" ++ p.2.address)) then
    (false, locs)
  else
    (true, locs ++ [(name, ⟨galaxy, address, 0, description⟩)])

/-- Python `sorted(locations.items(), key=num_returns, reverse=True)`:
a stable sort placing higher counters first; `List.insertionSort` with
this relation is exactly such a stable sort (an earlier element is kept
before a later one whenever their counters tie). -/
def sortDesc (locs : Registry) : Registry :=
  locs.insertionSort (fun a b => b.2.num_returns ≤ a.2.num_returns)

/-- Python slice `l[:n]` for an `int` bound `n`: a nonnegative bound keeps
the first `n` elements; a negative bound drops the last `-n` elements
(clamping at the empty list). -/
def pyslice (n : Int) (l : Registry) : Registry :=
  if 0 ≤ n then l.take n.toNat else l.take (l.length - (-n).toNat)

/-- `list_top_locations(num)`: `num` is passed through `int(…)`, embedded
as `Option Int` (`none` = `int` raised `ValueError`/`TypeError`, e.g. on
`"abc"`, in which case the code substitutes 0); then the items are stably
sorted by descending `num_returns` and sliced by `[:n]`. -/
def list_top_locations (num : Option Int) (locs : Registry) : Registry :=
  pyslice (num.getD 0) (sortDesc locs)

/-- Result of one `modify_location` call: the returned Bool, the state of
the backing store after the call, and whether `save_locations` ran. -/
structure ModResult where
  ok : Bool
  locs : Registry
  saved : Bool
deriving DecidableEq, Repr

/-- `modify_location(name, old_galaxy, old_address, new_galaxy?,
new_address?, new_description?)`: lower-cases the argument name and uses
it directly as a dict key; on a key miss or an old-value mismatch returns
failure; otherwise overwrites exactly the supplied fields and saves iff
at least one new value was supplied. -/
def modify_location (name old_galaxy old_address : String)
    (new_galaxy new_address new_description : Option String)
    (locs : Registry) : ModResult :=
  match lookup locs (pylower name) with
  | none => ⟨false, locs, false⟩
  | some loc =>
    if loc.galaxy ≠ old_galaxy ∨ loc.address ≠ old_address then
      ⟨false, locs, false⟩
    else
      ⟨true,
        locs.map (fun p =>
          if p.1 = pylower name then
            (p.1, ⟨new_galaxy.getD loc.galaxy, new_address.getD loc.address,
                    loc.num_returns, new_description.getD loc.description⟩)
          else p),
        new_galaxy.isSome || new_address.isSome || new_description.isSome⟩

/-- Outcome of reading the backing file in `load_locations`: it opens and
JSON-parses the file; `FileNotFoundError` and `json.JSONDecodeError` are
the two caught exceptions, any other read-time fault (e.g. a permission
error) is uncaught. -/
inductive ReadOutcome where
  | ok (content : Registry)
  | notFound
  | parseError
  | readFault
deriving DecidableEq, Repr

/-- An exception propagating out of `load_locations`. -/
inductive LoadFault where
  | raised
deriving DecidableEq, Repr

/-- `load_locations`: returns the parsed mapping, swallows a missing file
and a JSON parse failure into the empty dict, and lets any other fault
propagate. -/
def load_locations : ReadOutcome → Except LoadFault Registry
  | .ok m => .ok m
  | .notFound => .ok []
  | .parseError => .ok []
  | .readFault => .error .raised

/-! ### Helper lemmas about the embedded operations -/

theorem find?_incr_name (locs : Registry) (m : String) :
    (incr_name locs m).find? (fun q => q.1 == m) =
      (locs.find? (fun q => q.1 == m)).map
        (fun p => if p.1 = m then (p.1, bump p.2) else p) := by
  unfold incr_name
  have hfun : ((fun q : String × Record => q.1 == m) ∘
      fun p : String × Record => if p.1 = m then (p.1, bump p.2) else p)
      = fun q : String × Record => q.1 == m := by
    funext p
    by_cases h : p.1 = m <;> simp [h]
  rw [List.find?_map, hfun]

theorem lookup_incr_name {locs : Registry} {m : String} {p : String × Record}
    (hp : locs.find? (fun q => q.1 == m) = some p) :
    lookup (incr_name locs m) m = some (bump p.2) := by
  have hpm : p.1 = m := by simpa using List.find?_some hp
  unfold lookup
  rw [find?_incr_name, hp]
  simp [hpm]

theorem accept_eq {locs : Registry} {m : String} {p : String × Record}
    (hp : locs.find? (fun q => q.1 == m) = some p) :
    accept locs m = ⟨some (bump p.2), incr_name locs m, true⟩ := by
  unfold accept
  rw [lookup_incr_name hp]

theorem mem_keys_find? {locs : Registry} {m : String} (h : m ∈ keys locs) :
    ∃ p, locs.find? (fun q => q.1 == m) = some p ∧ p.1 = m ∧ p ∈ locs := by
  cases hf : locs.find? (fun q => q.1 == m) with
  | none =>
    rw [List.find?_eq_none] at hf
    obtain ⟨p, hpmem, hpm⟩ := List.mem_map.1 h
    exact absurd (by simpa using hpm) (by simpa using hf p hpmem)
  | some p =>
    exact ⟨p, rfl, by simpa using List.find?_some hf, List.mem_of_find?_eq_some hf⟩

theorem countP_key_eq_one {locs : Registry} {m : String}
    (hn : (keys locs).Nodup) (h : m ∈ keys locs) :
    locs.countP (fun q => q.1 == m) = 1 := by
  induction locs with
  | nil => simp [keys] at h
  | cons p ps ih =>
    simp only [keys, List.map_cons, List.nodup_cons] at hn
    simp only [keys, List.map_cons, List.mem_cons] at h
    rcases h with h | h
    · have hzero : ps.countP (fun q => q.1 == m) = 0 := by
        rw [List.countP_eq_zero]
        intro q hq
        simp only [beq_iff_eq]
        intro hqm
        exact hn.1 (by
          rw [← h, ← hqm]
          exact List.mem_map.2 ⟨q, hq, rfl⟩)
      rw [List.countP_cons, hzero]
      simp [h]
    · have hne : ¬(p.1 = m) := by
        intro he
        exact hn.1 (he ▸ h)
      rw [List.countP_cons]
      simpa [hne] using ih hn.2 h

theorem accept_frame {locs : Registry} {m : String}
    (hn : (keys locs).Nodup) (hm : m ∈ keys locs) :
    (accept locs m).saved = true ∧
      ∃ p ∈ locs, (accept locs m).found = some (bump p.2) ∧
        (accept locs m).locs =
          locs.map (fun q => if q.1 = p.1 then (q.1, bump q.2) else q) ∧
        locs.countP (fun q => q.1 == p.1) = 1 := by
  obtain ⟨p, hp, hpm, hpmem⟩ := mem_keys_find? hm
  rw [accept_eq hp]
  refine ⟨rfl, p, hpmem, rfl, ?_, ?_⟩
  · rw [hpm]; rfl
  · rw [hpm]; exact countP_key_eq_one hn hm

theorem pymax_spec (score : String → Nat) (ns : List String) :
    ∀ b : String × Nat, b.2 = score b.1 →
      (pymax score b ns = b ∨ (pymax score b ns).1 ∈ ns) ∧
        (pymax score b ns).2 = score (pymax score b ns).1 ∧
        b.2 ≤ (pymax score b ns).2 ∧
        ∀ n ∈ ns, score n ≤ (pymax score b ns).2 := by
  induction ns with
  | nil =>
    intro b hb
    exact ⟨Or.inl rfl, hb, le_refl _, by simp⟩
  | cons m ms ih =>
    intro b hb
    simp only [pymax]
    have hb' : (if b.2 < score m then (m, score m) else b).2
        = score (if b.2 < score m then (m, score m) else b).1 := by
      split <;> simp [hb]
    obtain ⟨h1, h2, h3, h4⟩ := ih _ hb'
    have hbb' : b.2 ≤ (if b.2 < score m then (m, score m) else b).2 := by
      split
      · exact le_of_lt (by assumption)
      · exact le_refl _
    have hmb' : score m ≤ (if b.2 < score m then (m, score m) else b).2 := by
      split
      · simp
      · exact le_of_not_lt (by assumption)
    refine ⟨?_, h2, le_trans hbb' h3, ?_⟩
    · rcases h1 with h1 | h1
      · rw [h1]
        split
        · exact Or.inr (List.mem_cons_self _ _)
        · exact Or.inl rfl
      · exact Or.inr (List.mem_cons_of_mem _ h1)
    · intro n hn
      rcases List.mem_cons.1 hn with rfl | hn
      · exact le_trans hmb' h3
      · exact h4 n hn

theorem extractOne_some {score : String → Nat} {names : List String} {m : String}
    {s : Nat} (h : extractOne score names = some (m, s)) :
    m ∈ names ∧ s = score m ∧ ∀ n ∈ names, score n ≤ s := by
  cases names with
  | nil => simp [extractOne] at h
  | cons n ns =>
    simp only [extractOne, Option.some.injEq] at h
    obtain ⟨h1, h2, h3, h4⟩ := pymax_spec score ns (n, score n) rfl
    rw [h] at h1 h2 h3 h4
    refine ⟨?_, by simpa using h2, ?_⟩
    · rcases h1 with h1 | h1
      · have : m = n := congrArg Prod.fst h1
        exact this ▸ List.mem_cons_self _ _
      · exact List.mem_cons_of_mem _ h1
    · intro x hx
      rcases List.mem_cons.1 hx with rfl | hx
      · simpa using h3
      · exact h4 x hx

theorem extractOne_eq_none {score : String → Nat} {names : List String} :
    extractOne score names = none ↔ names = [] := by
  cases names <;> simp [extractOne]

theorem mem_word_matches {fuzzR : String → String → Nat} {th : Nat}
    {locs : Registry} {w x : String}
    (h : x ∈ word_matches fuzzR th locs w) : x ∈ keys locs := by
  unfold word_matches at h
  obtain ⟨n, hn, hx⟩ := List.mem_flatMap.1 h
  obtain ⟨lw, _, hxe⟩ := List.mem_map.1 hx
  exact hxe ▸ hn

theorem swp_cases (fuzzR : String → String → Nat) (th : Nat) (locs : Registry)
    (ws : List String) :
    single_word_pass fuzzR th locs ws = ⟨none, locs, false⟩ ∨
      ∃ m ∈ keys locs, single_word_pass fuzzR th locs ws = accept locs m := by
  induction ws with
  | nil => exact Or.inl rfl
  | cons w ws ih =>
    rw [single_word_pass]
    cases hwm : word_matches fuzzR th locs w with
    | nil => exact ih
    | cons n tail =>
      cases tail with
      | nil =>
        refine Or.inr ⟨n, ?_, rfl⟩
        exact mem_word_matches (x := n) (by rw [hwm]; exact List.mem_cons_self _ _)
      | cons b rest => exact ih

theorem fuzzy_cases (fuzzR fuzzPR : String → String → Nat) (th : Nat)
    (locs : Registry) (il : String) :
    fuzzy_passes fuzzR fuzzPR th locs il = ⟨none, locs, false⟩ ∨
      ∃ m ∈ keys locs, fuzzy_passes fuzzR fuzzPR th locs il = accept locs m := by
  unfold fuzzy_passes
  split
  · rename_i m s he
    have hmem := (extractOne_some he).1
    split
    · split
      · exact Or.inr ⟨m, hmem, rfl⟩
      · exact swp_cases fuzzR th locs (pysplit il)
    · exact swp_cases fuzzR th locs (pysplit il)
  · exact swp_cases fuzzR th locs (pysplit il)

theorem find_cases (fuzzR fuzzPR : String → String → Nat) (input : String)
    (th : Nat) (locs : Registry) :
    find_location_in_string fuzzR fuzzPR input th locs = ⟨none, locs, false⟩ ∨
      ∃ m ∈ keys locs,
        find_location_in_string fuzzR fuzzPR input th locs = accept locs m := by
  unfold find_location_in_string
  split
  · exact Or.inl rfl
  · cases hfl : (keys locs).filter (fun n => substr (pylower input) (pylower n)) with
    | nil => exact fuzzy_cases fuzzR fuzzPR th locs (pylower input)
    | cons m rest =>
      have hmm : m ∈ (keys locs).filter
          (fun n => substr (pylower input) (pylower n)) := by
        rw [hfl]; exact List.mem_cons_self _ _
      by_cases hr : rest.length ≤ 1
      · exact Or.inr ⟨m, (List.mem_filter.1 hmm).1, if_pos hr⟩
      · refine Or.elim (fuzzy_cases fuzzR fuzzPR th locs (pylower input))
          (fun h => Or.inl ((if_neg hr).trans h))
          (fun h => ?_)
        obtain ⟨x, hx, he⟩ := h
        exact Or.inr ⟨x, hx, (if_neg hr).trans he⟩

/-! ### Concrete data used by witnesses and counterexamples -/

/-- A scorer that never reaches any positive threshold (the claims hold
for every scorer, so witnesses may pick any concrete one). -/
def zeroScore (_ _ : String) : Nat := 0

/-- A concrete full-ratio scorer for witnesses: 100 on equal strings,
0 otherwise (any reasonable similarity ratio is 100 on equal strings). -/
def eqScore (a b : String) : Nat := if a = b then 100 else 0

/-- A scorer that always reports 90. -/
def ninetyScore (_ _ : String) : Nat := 90

def novaRec : Record := ⟨"3", "1A2B3C4D5E6F", 0, "x"⟩

/-- The registry produced by `register("Nova", "3", "1A2B3C4D5E6F", "x")`
on an empty store. -/
def novaReg : Registry := [("Nova", novaRec)]

/-! ### Claim theorems -/

/-- C1: the spec's claim that `modify` looks up its target record by
case-insensitive name is contradicted by the code: `modify_location`
lower-cases the argument name and uses the result directly as an exact
dict key, so a record stored under a name containing an upper-case letter
is never found.  Concretely, after `register("Nova", "3", "1A2B3C4D5E6F",
"x")`, a stored name equals `"Nova"` up to letter case and its current
values equal the supplied old values, yet `modify("Nova", "3",
"1A2B3C4D5E6F", new_galaxy="9")` fails with not-found (the lower-cased
key `"nova"` misses) instead of succeeding as the spec's example
requires. -/
theorem C1_modify_lowercased_key_misses_stored_name :
    (∃ p ∈ novaReg, pylower p.1 = pylower "Nova") ∧
    lookup novaReg (pylower "Nova") = none ∧
    modify_location "Nova" "3" "1A2B3C4D5E6F" (some "9") none none novaReg
      = ⟨false, novaReg, false⟩ := by decide

/-- C3: for every scorer pair, every threshold, every input text and every
registry with distinct keys, resolving either returns no match — and then
the registry value is unchanged and no save happened — or returns a
match, and then the registry was saved, the returned record is the
matched record with `num_returns` incremented by exactly 1, the new
registry state differs from the old only at that single record (which
occurs exactly once), and only in that one field. -/
theorem C3_resolve_frame (fuzzR fuzzPR : String → String → Nat)
    (input : String) (th : Nat) (locs : Registry)
    (hn : (keys locs).Nodup) :
    ((find_location_in_string fuzzR fuzzPR input th locs).found = none →
      (find_location_in_string fuzzR fuzzPR input th locs).locs = locs ∧
      (find_location_in_string fuzzR fuzzPR input th locs).saved = false) ∧
    (∀ r : Record,
      (find_location_in_string fuzzR fuzzPR input th locs).found = some r →
      (find_location_in_string fuzzR fuzzPR input th locs).saved = true ∧
      ∃ p ∈ locs, r = bump p.2 ∧
        (find_location_in_string fuzzR fuzzPR input th locs).locs =
          locs.map (fun q => if q.1 = p.1 then (q.1, bump q.2) else q) ∧
        locs.countP (fun q => q.1 == p.1) = 1) := by
  rcases find_cases fuzzR fuzzPR input th locs with h | ⟨m, hm, h⟩
  · rw [h]
    exact ⟨fun _ => ⟨rfl, rfl⟩, fun r hr => by simp at hr⟩
  · rw [h]
    obtain ⟨hs, p, hpmem, hfound, hlocs, hcount⟩ := accept_frame hn hm
    refine ⟨fun hnone => absurd (hfound.symm.trans hnone) (by simp), ?_⟩
    intro r hr
    exact ⟨hs, p, hpmem, (Option.some.inj (hfound.symm.trans hr)).symm, hlocs, hcount⟩

/-- Witness for C3 at a concrete input: resolving `"nova"` over the
`novaReg` registry matches and increments exactly the stored record. -/
theorem C3_resolve_frame_witness :
    (find_location_in_string zeroScore zeroScore "nova" 80 novaReg).saved = true ∧
      ∃ p ∈ novaReg, bump novaRec = bump p.2 ∧
        (find_location_in_string zeroScore zeroScore "nova" 80 novaReg).locs =
          novaReg.map (fun q => if q.1 = p.1 then (q.1, bump q.2) else q) ∧
        novaReg.countP (fun q => q.1 == p.1) = 1 :=
  (C3_resolve_frame zeroScore zeroScore "nova" 80 novaReg (by decide)).2
    (bump novaRec) (by decide)

theorem swp_found_none_iff (fuzzR : String → String → Nat) (th : Nat)
    (locs : Registry) (ws : List String) :
    (single_word_pass fuzzR th locs ws).found = none ↔
      ∀ w ∈ ws, (word_matches fuzzR th locs w).length ≠ 1 := by
  induction ws with
  | nil => simp [single_word_pass]
  | cons w ws ih =>
    rw [single_word_pass]
    cases hwm : word_matches fuzzR th locs w with
    | nil =>
      show (single_word_pass fuzzR th locs ws).found = none ↔ _
      constructor
      · intro h v hv
        rcases List.mem_cons.1 hv with rfl | hv
        · rw [hwm]; simp
        · exact (ih.1 h) v hv
      · intro h
        exact ih.2 fun v hv => h v (List.mem_cons_of_mem _ hv)
    | cons n tail =>
      cases tail with
      | nil =>
        show (accept locs n).found = none ↔ _
        have hnk : n ∈ keys locs :=
          mem_word_matches (x := n) (by rw [hwm]; exact List.mem_cons_self _ _)
        obtain ⟨p, hp, _, _⟩ := mem_keys_find? hnk
        rw [accept_eq hp]
        constructor
        · intro habs; simp at habs
        · intro h
          exact absurd (by simp [hwm] : (word_matches fuzzR th locs w).length = 1)
            (h w (List.mem_cons_self _ _))
      | cons b rest =>
        show (single_word_pass fuzzR th locs ws).found = none ↔ _
        constructor
        · intro h v hv
          rcases List.mem_cons.1 hv with rfl | hv
          · rw [hwm]; simp
          · exact (ih.1 h) v hv
        · intro h
          exact ih.2 fun v hv => h v (List.mem_cons_of_mem _ hv)

theorem swp_accept_at (fuzzR : String → String → Nat) (th : Nat)
    (locs : Registry) :
    ∀ (ws₁ : List String) (w : String) (ws₂ : List String) (n : String),
      (∀ v ∈ ws₁, (word_matches fuzzR th locs v).length ≠ 1) →
      word_matches fuzzR th locs w = [n] →
      single_word_pass fuzzR th locs (ws₁ ++ w :: ws₂) = accept locs n := by
  intro ws₁
  induction ws₁ with
  | nil =>
    intro w ws₂ n _ hw
    rw [List.nil_append, single_word_pass, hw]
  | cons v vs ih =>
    intro w ws₂ n hv hw
    rw [List.cons_append, single_word_pass]
    cases hwm : word_matches fuzzR th locs v with
    | nil => exact ih w ws₂ n (fun x hx => hv x (List.mem_cons_of_mem _ hx)) hw
    | cons a tail =>
      cases tail with
      | nil =>
        exact absurd (by simp [hwm] : (word_matches fuzzR th locs v).length = 1)
          (hv v (List.mem_cons_self _ _))
      | cons b rest =>
        exact ih w ws₂ n (fun x hx => hv x (List.mem_cons_of_mem _ hx)) hw

theorem word_matches_length (fuzzR : String → String → Nat) (th : Nat)
    (locs : Registry) (w : String) :
    (word_matches fuzzR th locs w).length =
      ((keys locs).map
        (fun nm => ((pysplit nm).filter (fun lw => decide (th ≤ fuzzR w lw))).length)).sum := by
  simp [word_matches, List.length_flatMap, Function.comp_def, List.length_map,
    List.length_replicate]

/-- C4 (amended): in the single-word pass the code builds, for each input
word, a matches list containing one entry per qualifying (location name,
name word) pair — a location name is appended once for every of its
whitespace-delimited words whose full ratio against the input word
reaches the threshold, with no per-name deduplication.  A word yields a
match exactly when that pair count is exactly 1; the scan accepts at the
first such word and otherwise continues, returning no match when no word
has pair count 1. -/
theorem C4_single_word_amended (fuzzR : String → String → Nat) (th : Nat)
    (locs : Registry) (ws : List String) :
    (∀ w : String, (word_matches fuzzR th locs w).length =
      ((keys locs).map
        (fun nm => ((pysplit nm).filter
          (fun lw => decide (th ≤ fuzzR w lw))).length)).sum) ∧
    ((single_word_pass fuzzR th locs ws).found = none ↔
      ∀ w ∈ ws, (word_matches fuzzR th locs w).length ≠ 1) ∧
    (∀ (ws₁ : List String) (w : String) (ws₂ : List String) (n : String),
      ws = ws₁ ++ w :: ws₂ →
      (∀ v ∈ ws₁, (word_matches fuzzR th locs v).length ≠ 1) →
      word_matches fuzzR th locs w = [n] →
      single_word_pass fuzzR th locs ws = accept locs n) :=
  ⟨fun w => word_matches_length fuzzR th locs w,
   swp_found_none_iff fuzzR th locs ws,
   fun ws₁ w ws₂ n hws hv hw =>
     hws ▸ swp_accept_at fuzzR th locs ws₁ w ws₂ n hv hw⟩

/-- Witness for C4 (amended) at a concrete input: for the registry
`[("ab cd", …)]` and the words `["zz", "ab"]`, the word `"zz"` yields no
qualifying pair, the word `"ab"` yields exactly one, and the pass accepts
`"ab cd"`. -/
theorem C4_single_word_amended_witness :
    single_word_pass eqScore 80 [("ab cd", ⟨"1", "111111111111", 0, "d"⟩)]
        ["zz", "ab"] =
      accept [("ab cd", ⟨"1", "111111111111", 0, "d"⟩)] "ab cd" :=
  (C4_single_word_amended eqScore 80 [("ab cd", ⟨"1", "111111111111", 0, "d"⟩)]
      ["zz", "ab"]).2.2 ["zz"] "ab" [] "ab cd" rfl (by decide) (by decide)

/-- A registry whose single location name contains the same word twice. -/
def dupWordReg : Registry := [("ab ab", ⟨"1", "111111111111", 0, "d"⟩)]

/-- Counterexample to C4 as stated: resolving `"zz ab"` over the registry
`[("ab ab", …)]` with a scorer giving 100 on equal words.  For the input
word `"zz"` no location name qualifies; for the input word `"ab"` exactly
one distinct location name has a qualifying name word — so by the claim
the resolver must accept it — yet the code appends the name once per
qualifying word, gets a matches list of length 2, and returns no match. -/
theorem C4_dedup_counterexample :
    ((keys dupWordReg).filter
      (fun nm => (pysplit nm).any (fun lw => decide (80 ≤ eqScore "zz" lw)))).length = 0 ∧
    ((keys dupWordReg).filter
      (fun nm => (pysplit nm).any (fun lw => decide (80 ≤ eqScore "ab" lw)))).length = 1 ∧
    word_matches eqScore 80 dupWordReg "ab" = ["ab ab", "ab ab"] ∧
    (find_location_in_string eqScore zeroScore "zz ab" 80 dupWordReg).found = none := by
  decide

/-- C5: in the substring pass, a location name is a candidate exactly when
the lower-cased input literally appears inside the lower-cased name; with
1 or 2 candidates the resolver accepts the first candidate in registry
(insertion) order, and with 0 or more than 2 candidates it falls through
to the fuzzy passes. -/
theorem C5_substring_pass (fuzzR fuzzPR : String → String → Nat)
    (input : String) (th : Nat) (locs : Registry) (hne : input ≠ "") :
    (∀ m : String,
      m ∈ (keys locs).filter (fun n => substr (pylower input) (pylower n)) ↔
        m ∈ keys locs ∧ (pylower input).toList <:+: (pylower m).toList) ∧
    (∀ (m : String) (rest : List String),
      (keys locs).filter (fun n => substr (pylower input) (pylower n)) = m :: rest →
      rest.length ≤ 1 →
      find_location_in_string fuzzR fuzzPR input th locs = accept locs m) ∧
    (((keys locs).filter (fun n => substr (pylower input) (pylower n)) = [] ∨
        2 < ((keys locs).filter (fun n => substr (pylower input) (pylower n))).length) →
      find_location_in_string fuzzR fuzzPR input th locs =
        fuzzy_passes fuzzR fuzzPR th locs (pylower input)) := by
  refine ⟨?_, ?_, ?_⟩
  · intro m
    rw [List.mem_filter]
    simp only [substr, decide_eq_true_iff]
  · intro m rest hfl hr
    unfold find_location_in_string
    rw [if_neg hne, hfl]
    exact if_pos hr
  · intro hcase
    unfold find_location_in_string
    rw [if_neg hne]
    rcases hfe : (keys locs).filter (fun n => substr (pylower input) (pylower n)) with
      _ | ⟨m, rest⟩
    · rfl
    · rcases hcase with hfl | hlen
      · rw [hfe] at hfl
        simp at hfl
      · rw [hfe] at hlen
        simp only [List.length_cons] at hlen
        exact if_neg (by omega)

/-- Witness for C5 at a concrete input: `"nova"` is a substring of both
stored lower-cased names, so there are exactly two candidates and the
first, `"Nova"`, is accepted. -/
theorem C5_substring_pass_witness :
    find_location_in_string zeroScore zeroScore "nova" 80
        [("Nova", novaRec), ("Supernova", ⟨"4", "2A2B3C4D5E6F", 0, "y"⟩)] =
      accept [("Nova", novaRec), ("Supernova", ⟨"4", "2A2B3C4D5E6F", 0, "y"⟩)]
        "Nova" :=
  (C5_substring_pass zeroScore zeroScore "nova" 80
      [("Nova", novaRec), ("Supernova", ⟨"4", "2A2B3C4D5E6F", 0, "y"⟩)]
      (by decide)).2.1 "Nova" ["Supernova"] (by decide) (by decide)

/-- C6: in the full-phrase fuzzy pass the resolver takes a location name
attaining the maximal partial-ratio score against the (lower-cased) input
— the first such name in registry order — and accepts it exactly when
that score reaches the threshold and, additionally, the lower-cased
matched name is a substring of the input or some whitespace-delimited
input word has full ratio at least the threshold against the lower-cased
matched name; otherwise it falls through to the single-word pass. -/
theorem C6_phrase_pass (fuzzR fuzzPR : String → String → Nat) (th : Nat)
    (il : String) (locs : Registry) (m : String) (s : Nat)
    (he : extractOne (fun n => fuzzPR il n) (keys locs) = some (m, s)) :
    m ∈ keys locs ∧ s = fuzzPR il m ∧ (∀ n ∈ keys locs, fuzzPR il n ≤ s) ∧
    (th ≤ s ∧ ((pylower m).toList <:+: il.toList ∨
        ∃ w ∈ pysplit il, th ≤ fuzzR w (pylower m)) →
      fuzzy_passes fuzzR fuzzPR th locs il = accept locs m) ∧
    (¬(th ≤ s ∧ ((pylower m).toList <:+: il.toList ∨
        ∃ w ∈ pysplit il, th ≤ fuzzR w (pylower m))) →
      fuzzy_passes fuzzR fuzzPR th locs il =
        single_word_pass fuzzR th locs (pysplit il)) := by
  obtain ⟨h1, h2, h3⟩ := extractOne_some he
  have hguard : (substr (pylower m) il
      || (pysplit il).any fun w => decide (th ≤ fuzzR w (pylower m))) = true ↔
      ((pylower m).toList <:+: il.toList ∨
        ∃ w ∈ pysplit il, th ≤ fuzzR w (pylower m)) := by
    simp [substr, List.any_eq_true]
  refine ⟨h1, h2, h3, ?_, ?_⟩
  · rintro ⟨hth, hg⟩
    unfold fuzzy_passes
    rw [he]
    exact (if_pos hth).trans (if_pos (hguard.2 hg))
  · intro hng
    unfold fuzzy_passes
    rw [he]
    by_cases hth : th ≤ s
    · refine (if_pos hth).trans (if_neg ?_)
      intro hb
      exact hng ⟨hth, hguard.1 hb⟩
    · exact if_neg hth

/-- Witness for C6 at a concrete input: with a partial-ratio scorer
reporting 90, the single stored name `"ab"` is the best match for
`"xx ab yy"`, the score 90 reaches the threshold 80, and the matched name
is a substring of the input, so the pass accepts it. -/
theorem C6_phrase_pass_witness :
    fuzzy_passes zeroScore ninetyScore 80 [("ab", ⟨"1", "111111111111", 0, "d"⟩)]
        "xx ab yy" =
      accept [("ab", ⟨"1", "111111111111", 0, "d"⟩)] "ab" := by
  have h := C6_phrase_pass zeroScore ninetyScore 80 "xx ab yy"
    [("ab", ⟨"1", "111111111111", 0, "d"⟩)] "ab" 90 (by decide)
  exact h.2.2.2.1 ⟨by decide, Or.inl (by decide)⟩

theorem filter_orderedInsert (k : Nat) (a : String × Record) (l : Registry) :
    (List.orderedInsert
        (fun x y : String × Record => y.2.num_returns ≤ x.2.num_returns) a l).filter
        (fun p => p.2.num_returns == k) =
      if a.2.num_returns = k then
        a :: l.filter (fun p => p.2.num_returns == k)
      else l.filter (fun p => p.2.num_returns == k) := by
  induction l with
  | nil =>
    by_cases h : a.2.num_returns = k <;>
      simp [List.orderedInsert, List.filter_cons, h]
  | cons b l ih =>
    simp only [List.orderedInsert]
    by_cases hr : b.2.num_returns ≤ a.2.num_returns
    · rw [if_pos hr]
      by_cases h : a.2.num_returns = k <;> simp [List.filter_cons, h]
    · rw [if_neg hr]
      have hab : a.2.num_returns < b.2.num_returns := Nat.not_le.1 hr
      by_cases h : a.2.num_returns = k
      · have hbk : ¬(b.2.num_returns = k) := by omega
        simp [List.filter_cons, hbk, ih, h]
      · simp only [List.filter_cons]
        by_cases hbk : b.2.num_returns = k <;> simp [hbk, ih, h]

theorem filter_sortDesc (k : Nat) (l : Registry) :
    (sortDesc l).filter (fun p => p.2.num_returns == k) =
      l.filter (fun p => p.2.num_returns == k) := by
  induction l with
  | nil => rfl
  | cons a l ih =>
    show (List.orderedInsert _ a (sortDesc l)).filter _ = _
    rw [filter_orderedInsert]
    by_cases h : a.2.num_returns = k <;> simp [List.filter_cons, h, ih]

theorem sortDesc_perm (l : Registry) : (sortDesc l).Perm l :=
  List.perm_insertionSort _ l

theorem sortDesc_sorted (l : Registry) :
    (sortDesc l).Sorted
      (fun a b : String × Record => b.2.num_returns ≤ a.2.num_returns) := by
  haveI : IsTotal (String × Record)
      (fun a b : String × Record => b.2.num_returns ≤ a.2.num_returns) :=
    ⟨fun a b => (Nat.le_total a.2.num_returns b.2.num_returns).symm⟩
  haveI : IsTrans (String × Record)
      (fun a b : String × Record => b.2.num_returns ≤ a.2.num_returns) :=
    ⟨fun _ _ _ hab hbc => Nat.le_trans hbc hab⟩
  exact List.sorted_insertionSort _ l

/-- C2 (amended): `topN` stably sorts the records by descending
`num_returns` — the sorted sequence is a permutation of the registry,
is sorted, and lists records with equal counters in their original
insertion order — and then applies the Python slice `[:n]`.  An
unparsable argument is replaced by 0, and `topN(0)` returns the empty
list; a nonnegative `n` returns the first `n` sorted records; but a
negative `n` returns the sorted sequence with its last `-n` elements
dropped, which is empty only when the registry has at most `-n`
records. -/
theorem C2_topn_amended (num : Option Int) (locs : Registry) :
    (sortDesc locs).Perm locs ∧
    (sortDesc locs).Sorted
      (fun a b : String × Record => b.2.num_returns ≤ a.2.num_returns) ∧
    (∀ k : Nat, (sortDesc locs).filter (fun p => p.2.num_returns == k) =
      locs.filter (fun p => p.2.num_returns == k)) ∧
    (num = none → list_top_locations num locs = []) ∧
    (num = some 0 → list_top_locations num locs = []) ∧
    (∀ n : Int, num = some n → 0 ≤ n →
      list_top_locations num locs = (sortDesc locs).take n.toNat) ∧
    (∀ n : Int, num = some n → n < 0 →
      list_top_locations num locs =
        (sortDesc locs).take (locs.length - (-n).toNat)) := by
  refine ⟨sortDesc_perm locs, sortDesc_sorted locs,
    fun k => filter_sortDesc k locs, ?_, ?_, ?_, ?_⟩
  · rintro rfl
    show pyslice 0 (sortDesc locs) = []
    simp [pyslice]
  · rintro rfl
    show pyslice 0 (sortDesc locs) = []
    simp [pyslice]
  · rintro n rfl hn
    show pyslice n (sortDesc locs) = _
    unfold pyslice
    rw [if_pos hn]
  · rintro n rfl hn
    have hlen : (sortDesc locs).length = locs.length := (sortDesc_perm locs).length_eq
    show pyslice n (sortDesc locs) = _
    unfold pyslice
    rw [if_neg (by omega : ¬(0:Int) ≤ n), hlen]

/-- A six-record registry with pairwise distinct counters. -/
def sixReg : Registry :=
  [("a", ⟨"1", "1", 6, ""⟩), ("b", ⟨"1", "2", 5, ""⟩), ("c", ⟨"1", "3", 4, ""⟩),
   ("d", ⟨"1", "4", 3, ""⟩), ("e", ⟨"1", "5", 2, ""⟩), ("f", ⟨"1", "6", 1, ""⟩)]

/-- Counterexample to C2 as stated: the claim says `topN(n)` returns an
empty list for every non-positive `n`, but on a six-record registry
`topN(-5)` returns the top record — Python's `l[:-5]` keeps the first
`len(l) - 5` elements rather than none. -/
theorem C2_negative_topn_counterexample :
    list_top_locations (some (-5)) sixReg = [("a", ⟨"1", "1", 6, ""⟩)] := by
  decide

/-- Witness for C2 (amended) at a concrete input: `topN(2)` on the
six-record registry is the two-element prefix of the sorted sequence. -/
theorem C2_topn_amended_witness :
    list_top_locations (some 2) sixReg = (sortDesc sixReg).take (Int.toNat 2) :=
  (C2_topn_amended (some 2) sixReg).2.2.2.2.2.1 2 rfl (by decide)

/-- C7 (amended): `register` fails, without raising and leaving the
registry unchanged, whenever the new name collides case-insensitively
with a stored name or the lower-cased `"galaxy-address"` concatenation
collides with a stored record's — in particular whenever the exact
(galaxy, address) pair already exists; when neither the lower-cased name
nor the lower-cased concatenation collides it appends the new record
with `num_returns = 0` and persists.  (The original claim's "otherwise it
inserts" is too strong: a concatenation collision can occur without a
byte-equal (galaxy, address) pair.) -/
theorem C7_register_amended (name galaxy address description : String)
    (locs : Registry) :
    ((∃ p ∈ locs, pylower p.1 = pylower name) →
      register_location name galaxy address description locs = (false, locs)) ∧
    ((∃ p ∈ locs, p.2.galaxy = galaxy ∧ p.2.address = address) →
      register_location name galaxy address description locs = (false, locs)) ∧
    ((∀ p ∈ locs, pylower p.1 ≠ pylower name ∧
        pylower (p.2.galaxy ++ "-" ++ p.2.address) ≠ pylower (galaxy ++ "-" ++ address)) →
      register_location name galaxy address description locs =
        (true, locs ++ [(name, ⟨galaxy, address, 0, description⟩)])) := by
  refine ⟨?_, ?_, ?_⟩
  · rintro ⟨p, hp, hpl⟩
    have h1 : pylower name ∈ (keys locs).map pylower :=
      List.mem_map.2 ⟨p.1, List.mem_map.2 ⟨p, hp, rfl⟩, hpl⟩
    simp only [register_location]
    rw [if_pos (Or.inl h1)]
  · rintro ⟨p, hp, hg, ha⟩
    have h2 : pylower (galaxy ++ "-" ++ address)
        ∈ locs.map (fun p => pylower (p.2.galaxy ++ "-" ++ p.2.address)) :=
      List.mem_map.2 ⟨p, hp, by rw [hg, ha]⟩
    simp only [register_location]
    rw [if_pos (Or.inr h2)]
  · intro h
    have hnot : ¬(pylower name ∈ (keys locs).map pylower ∨
        pylower (galaxy ++ "-" ++ address)
          ∈ locs.map (fun p => pylower (p.2.galaxy ++ "-" ++ p.2.address))) := by
      rintro (hc | hc)
      · obtain ⟨x, hx, hxl⟩ := List.mem_map.1 hc
        obtain ⟨p, hp, rfl⟩ := List.mem_map.1 hx
        exact (h p hp).1 hxl
      · obtain ⟨p, hp, hpl⟩ := List.mem_map.1 hc
        exact (h p hp).2 hpl
    simp only [register_location]
    rw [if_neg hnot]

/-- Witness for C7 (amended), the spec's own example: after
`register("Nova", "3", "1A2B3C4D5E6F", "x")`, the call
`register("nova", "3", "1A2B3C4D5E6F", "y")` fails with a name conflict
and leaves the registry unchanged. -/
theorem C7_register_amended_witness :
    register_location "nova" "3" "1A2B3C4D5E6F" "y" novaReg = (false, novaReg) :=
  (C7_register_amended "nova" "3" "1A2B3C4D5E6F" "y" novaReg).1
    ⟨("Nova", novaRec), by decide, by decide⟩

/-- A one-record registry whose stored address is lower-case hex. -/
def oldReg : Registry := [("Old", ⟨"3", "1a2b3c4d5e6f", 0, "d"⟩)]

/-- Counterexample to C7 as stated: registering `"New"` with galaxy `"3"`
and address `"1A2B3C4D5E6F"` over `oldReg` collides with no stored name
(case-insensitively) and with no byte-equal (galaxy, address) pair, so
the claim's "otherwise it inserts" requires success — yet the code fails,
because the lower-cased `"galaxy-address"` concatenations coincide. -/
theorem C7_case_pair_counterexample :
    (∀ p ∈ oldReg, pylower p.1 ≠ pylower "New") ∧
    (∀ p ∈ oldReg, ¬(p.2.galaxy = "3" ∧ p.2.address = "1A2B3C4D5E6F")) ∧
    register_location "New" "3" "1A2B3C4D5E6F" "y" oldReg = (false, oldReg) := by
  decide

/-- C8 (amended): on a found, guard-passing record `modify` succeeds,
overwrites exactly the fields for which a new value was supplied (the
counter and every unsupplied field keep their prior values, and every
other record is untouched), and saves the registry if and only if at
least one new value was supplied — even when the supplied values equal
the current ones, so a no-change submission still performs a write. -/
theorem C8_modify_amended (name old_galaxy old_address : String)
    (new_galaxy new_address new_description : Option String)
    (locs : Registry) (loc : Record)
    (hfind : lookup locs (pylower name) = some loc)
    (hg : loc.galaxy = old_galaxy) (ha : loc.address = old_address) :
    modify_location name old_galaxy old_address
        new_galaxy new_address new_description locs =
      ⟨true,
        locs.map (fun p =>
          if p.1 = pylower name then
            (p.1, ⟨new_galaxy.getD loc.galaxy, new_address.getD loc.address,
                    loc.num_returns, new_description.getD loc.description⟩)
          else p),
        new_galaxy.isSome || new_address.isSome || new_description.isSome⟩ := by
  unfold modify_location
  rw [hfind]
  exact if_neg (by simp [hg, ha])

/-- Witness for C8 (amended) at a concrete input: supplying only a new
galaxy `"9"` updates exactly that field of the stored record and saves. -/
theorem C8_modify_amended_witness :
    modify_location "nova" "3" "1A2B3C4D5E6F" (some "9") none none
        [("nova", ⟨"3", "1A2B3C4D5E6F", 0, "x"⟩)] =
      ⟨true, [("nova", ⟨"9", "1A2B3C4D5E6F", 0, "x"⟩)], true⟩ :=
  C8_modify_amended "nova" "3" "1A2B3C4D5E6F" (some "9") none none
    [("nova", ⟨"3", "1A2B3C4D5E6F", 0, "x"⟩)] ⟨"3", "1A2B3C4D5E6F", 0, "x"⟩
    (by decide) rfl rfl

/-- Counterexample to C8 as stated: the claim says the registry is
persisted only if at least one field's value actually changed, but
supplying a new galaxy equal to the current one yields a successful call
whose final registry equals the initial one field-for-field while a save
is still performed. -/
theorem C8_no_change_still_saves_counterexample :
    modify_location "nova" "3" "1A2B3C4D5E6F" (some "3") none none
        [("nova", ⟨"3", "1A2B3C4D5E6F", 0, "x"⟩)] =
      ⟨true, [("nova", ⟨"3", "1A2B3C4D5E6F", 0, "x"⟩)], true⟩ := by
  decide

/-- C9 (amended): `load` returns the empty collection when the backing
file is absent or unparsable, and the stored mapping when it parses —
but a read fault other than the two caught exceptions (for example a
permission error) propagates instead of being swallowed. -/
theorem C9_load_amended :
    (∀ oc : ReadOutcome,
      (∃ v, load_locations oc = .ok v) ↔ oc ≠ ReadOutcome.readFault) ∧
    load_locations .notFound = .ok [] ∧
    load_locations .parseError = .ok [] ∧
    (∀ m : Registry, load_locations (.ok m) = .ok m) := by
  refine ⟨?_, rfl, rfl, fun _ => rfl⟩
  intro oc
  cases oc <;> simp [load_locations]

/-- Witness for C9 (amended): an unparsable store loads as the empty
collection. -/
theorem C9_load_amended_witness : load_locations .parseError = .ok [] :=
  C9_load_amended.2.2.1

/-- Counterexample to C9 as stated: the claim says `load` never raises,
returning empty also when the file is "otherwise unreadable", but only
`FileNotFoundError` and `json.JSONDecodeError` are caught, so any other
read fault propagates. -/
theorem C9_uncaught_fault_counterexample :
    load_locations .readFault = .error .raised := rfl

/-- C10: `register`'s duplicate-pair detection compares the lower-cased
`"galaxy-address"` concatenations, so registration fails whenever some
stored record's concatenation equals the new one up to letter case —
in particular when the stored address differs from the new one only in
hexadecimal letter case. -/
theorem C10_register_pair_case_insensitive
    (name galaxy address description : String) (locs : Registry)
    (h : ∃ p ∈ locs,
      pylower (p.2.galaxy ++ "-" ++ p.2.address) = pylower (galaxy ++ "-" ++ address)) :
    register_location name galaxy address description locs = (false, locs) := by
  obtain ⟨p, hp, hpl⟩ := h
  have h2 : pylower (galaxy ++ "-" ++ address)
      ∈ locs.map (fun p => pylower (p.2.galaxy ++ "-" ++ p.2.address)) :=
    List.mem_map.2 ⟨p, hp, hpl⟩
  simp only [register_location]
  rw [if_pos (Or.inr h2)]

/-- A one-record registry with a lower-case hex address, for C10. -/
def outpostReg : Registry := [("Outpost", ⟨"3", "1a2b3c4d5e6f", 0, "d"⟩)]

/-- Witness for C10 at a concrete input: the stored address
`"1a2b3c4d5e6f"` blocks registering `"1A2B3C4D5E6F"` in the same galaxy
under a fresh name. -/
theorem C10_register_pair_case_insensitive_witness :
    register_location "Fresh" "3" "1A2B3C4D5E6F" "y" outpostReg =
      (false, outpostReg) :=
  C10_register_pair_case_insensitive "Fresh" "3" "1A2B3C4D5E6F" "y" outpostReg
    ⟨("Outpost", ⟨"3", "1a2b3c4d5e6f", 0, "d"⟩), by decide, by decide⟩

end GlyphDispenser
